import Mathlib

/-!
Verification of the k-nearest-neighbor spatial index specified for this
repository.  The repository's notebooks describe (in prose) a k-d tree
nearest-neighbor structure with brute-force equivalence, a bounded priority
queue query, and a nearest-neighbor density estimate; no implementation is
present in the sources, so the operations below are modelled directly from
the specification text.  The evaluation-grid and sample-filtering facts at
the end are embedded from the notebook code itself.

All coordinates are modelled as rationals (the code's floating-point values
are used only through arithmetic comparisons and exact ring operations in
the properties considered here); the density estimate, which involves pi and
the Gamma function, lives in the reals.
-/

namespace KNN

open scoped List

/-- A point is a fixed-length ordered sequence of real-valued coordinates
(spec section 3), modelled with rational coordinates. -/
abbrev Point := List ℚ

/-- Squared Euclidean distance: the sum of squared coordinate differences
(spec section 4.2, "Distance metric: Euclidean (sum of squared coordinate
differences)"). -/
def sqDist (p q : Point) : ℚ :=
  (p.zip q).foldr (fun ab s => (ab.1 - ab.2) ^ 2 + s) 0

/-- Error kinds of the specification (section 7). -/
inductive KNNError : Type where
  | invalidInputError : KNNError
  | domainError : KNNError
deriving DecidableEq

/-- Tree node: either a leaf owning a small set of identified points, or an
internal node owning a splitting dimension, a splitting value and two
children (spec section 3). -/
inductive Node : Type where
  | leaf (pts : List (ℕ × Point)) : Node
  | inner (d : ℕ) (m : ℚ) (left right : Node) : Node
deriving DecidableEq

/-- All identified points stored in the leaves of a node, in left-to-right
order. -/
def allPts : Node → List (ℕ × Point)
  | .leaf pts => pts
  | .inner _ _ l r => allPts l ++ allPts r

/-- The coordinate of an identified point along dimension d (missing
coordinates read as 0). -/
def coordAt (d : ℕ) (p : ℕ × Point) : ℚ := p.2.getD d 0

/-- Ascending sort of a list of rationals. -/
def sortQ (l : List ℚ) : List ℚ := l.insertionSort (· ≤ ·)

/-- Modelled from the spec: the splitting value is the median of the current
subset's coordinates along the splitting dimension (spec section 4.1). -/
def splitVal (d : ℕ) (pts : List (ℕ × Point)) : ℚ :=
  (sortQ (pts.map (coordAt d))).getD (pts.length / 2) 0

/-- Points strictly below the splitting value go to the left child
(spec section 4.1). -/
def leftPts (d : ℕ) (m : ℚ) (pts : List (ℕ × Point)) : List (ℕ × Point) :=
  pts.filter (fun p => coordAt d p < m)

/-- Points equal to or greater than the splitting value go to the right
child (spec section 4.1, tie-break policy). -/
def rightPts (d : ℕ) (m : ℚ) (pts : List (ℕ × Point)) : List (ℕ × Point) :=
  pts.filter (fun p => ¬ coordAt d p < m)

/-- Modelled from the spec: recursive k-d tree construction (spec section
4.1).  The subset is split at the median coordinate of the cyclically chosen
dimension; points strictly below go left, points equal or above go right;
recursion stops when the subset fits the leaf capacity.  A degenerate split
in which no point falls strictly below the median (all coordinates equal to
the minimum) also yields a leaf, since no progress is possible.  The fuel
argument bounds the recursion depth and is initialised to the number of
points, which always suffices because each split strictly shrinks both
sides (see the partition lemmas below). -/
def buildNode (cap D : ℕ) : ℕ → ℕ → List (ℕ × Point) → Node
  | 0, _, pts => .leaf pts
  | fuel + 1, depth, pts =>
    if pts.length ≤ cap then .leaf pts
    else if (leftPts (depth % D) (splitVal (depth % D) pts) pts).length = 0 then .leaf pts
    else
      .inner (depth % D) (splitVal (depth % D) pts)
        (buildNode cap D fuel (depth + 1) (leftPts (depth % D) (splitVal (depth % D) pts) pts))
        (buildNode cap D fuel (depth + 1) (rightPts (depth % D) (splitVal (depth % D) pts) pts))

/-- The spatial index: owns the root node and records the dimensionality of
the point set (spec sections 2 and 3). -/
structure Tree : Type where
  dim : ℕ
  root : Node
deriving DecidableEq

/-- Identified points: the input points tagged with their input-order
identifiers starting at i. -/
def tagFrom (i : ℕ) : List Point → List (ℕ × Point)
  | [] => []
  | p :: ps => (i, p) :: tagFrom (i + 1) ps

/-- The input point sequence tagged with identifiers 0, 1, 2, .... -/
def tagged (points : List Point) : List (ℕ × Point) := tagFrom 0 points

/-- Modelled from the spec: Build(points, leafCapacity) constructs the tree,
failing with InvalidInputError if the point sequence is empty or the leaf
capacity is not positive (spec section 4.1). -/
def Build (points : List Point) (leafCapacity : ℕ) : Except KNNError Tree :=
  if points = [] ∨ leafCapacity < 1 then .error .invalidInputError
  else .ok ⟨(points.headD []).length,
            buildNode leafCapacity (points.headD []).length points.length 0 (tagged points)⟩

/-- Insert a (identifier, distance) pair into a queue ordered by ascending
distance, after all entries of equal or smaller distance (so an entry
already present is never displaced by a merely equal newcomer: an eviction
happens only for a strictly closer point, spec section 4.2). -/
def insertPair (e : ℕ × ℚ) : List (ℕ × ℚ) → List (ℕ × ℚ)
  | [] => [e]
  | x :: xs => if x.2 ≤ e.2 then x :: insertPair e xs else e :: x :: xs

/-- Offer a candidate to the bounded max-priority queue of capacity k: the
candidate is inserted in distance order and the queue is truncated back to k
entries, which evicts the current farthest exactly when the candidate is
strictly closer (spec section 4.2). -/
def offer (k : ℕ) (q : List (ℕ × ℚ)) (e : ℕ × ℚ) : List (ℕ × ℚ) :=
  (insertPair e q).take k

/-- Distances recorded in a queue, in queue order. -/
def dl (q : List (ℕ × ℚ)) : List ℚ := q.map (fun e => e.2)

/-- The current worst (k-th best) distance in the queue: the last recorded
distance (0 for an empty queue). -/
def lastD : List ℚ → ℚ
  | [] => 0
  | [x] => x
  | _ :: x :: xs => lastD (x :: xs)

/-- Worst distance currently in the queue. -/
def worstOf (q : List (ℕ × ℚ)) : ℚ := lastD (dl q)

/-- At a leaf, compute the exact distance to every contained point and offer
each to the bounded queue (spec section 4.2). -/
def scanLeaf (k : ℕ) (t : Point) (pts : List (ℕ × Point)) (q : List (ℕ × ℚ)) :
    List (ℕ × ℚ) :=
  pts.foldl (fun acc p => offer k acc (p.1, sqDist p.2 t)) q

/-- Modelled from the spec: depth-first traversal with pruning (spec section
4.2).  At an internal node the search descends first into the child whose
region contains the target, then explores the sibling only if the queue is
not yet full or the minimum possible squared distance from the target to the
sibling's region (the squared distance to the splitting plane) is smaller
than the current worst distance in the queue. -/
def queryNode (k : ℕ) (t : Point) : Node → List (ℕ × ℚ) → List (ℕ × ℚ)
  | .leaf pts, q => scanLeaf k t pts q
  | .inner d m l r, q =>
    if t.getD d 0 < m then
      let q1 := queryNode k t l q
      if q1.length < k ∨ (m - t.getD d 0) ^ 2 < worstOf q1 then queryNode k t r q1 else q1
    else
      let q1 := queryNode k t r q
      if q1.length < k ∨ (t.getD d 0 - m) ^ 2 < worstOf q1 then queryNode k t l q1 else q1

/-- Modelled from the spec: Query(tree, target, k) returns the k nearest
points with their squared distances, failing with InvalidInputError if k is
not positive or the target dimensionality differs from the tree
dimensionality (spec section 4.2). -/
def Query (tr : Tree) (target : Point) (k : ℕ) : Except KNNError (List (ℕ × ℚ)) :=
  if k < 1 ∨ target.length ≠ tr.dim then .error .invalidInputError
  else .ok (queryNode k target tr.root [])

/-- The (identifier, distance) entries of a list of identified points with
respect to a target. -/
def entriesOf (t : Point) (pts : List (ℕ × Point)) : List (ℕ × ℚ) :=
  pts.map (fun p => (p.1, sqDist p.2 t))

/-- Brute-force k-nearest-neighbor scan, written from the spec's testable
properties (section 8): all distances are computed, the entries are stably
sorted ascending by distance (ties broken by input order) and the first k
are returned. -/
def bruteKnn (points : List Point) (t : Point) (k : ℕ) : List (ℕ × ℚ) :=
  ((entriesOf t (tagged points)).insertionSort (fun a b => a.2 ≤ b.2)).take k

/-- The maximum (k-th) distance of a neighbor result. -/
def maxDist (distances : List (ℕ × ℚ)) : ℚ :=
  (distances.map (fun e => e.2)).foldr max 0

/-- Modelled from the spec: the volume of a D-ball of radius d,
V_D(d) = 2 d^D pi^(D/2) / (D Gamma(D/2)) (spec section 4.3). -/
noncomputable def vD (D : ℕ) (d : ℝ) : ℝ :=
  2 * d ^ D * Real.pi ^ ((D : ℝ) / 2) / (D * Real.Gamma ((D : ℝ) / 2))

/-- Modelled from the spec: nearest-neighbor density estimate
Density(distances, k, D) = k / V_D(d_k), failing with DomainError when the
maximum distance is zero (spec section 4.3). -/
noncomputable def Density (distances : List (ℕ × ℚ)) (k : ℕ) (D : ℕ) :
    Except KNNError ℝ :=
  if maxDist distances = 0 then .error .domainError
  else .ok ((k : ℝ) / vD D ((maxDist distances : ℚ) : ℝ))

/-- Value-level insertion into an ascending list of distances, after all
entries of equal or smaller value; this is the distance shadow of
insertPair. -/
def insLE (a : ℚ) : List ℚ → List ℚ
  | [] => [a]
  | x :: xs => if x ≤ a then x :: insLE a xs else a :: x :: xs

/-- Fold value-level insertions of a batch of distances into an ascending
list. -/
def insAll (s : List ℚ) (X : List ℚ) : List ℚ :=
  X.foldl (fun acc x => insLE x acc) s

/-- Partition invariant of the spec (sections 3 and 4.1): below every
internal node, the points of the left subtree are strictly below the
splitting value along the splitting dimension and the points of the right
subtree are equal or above it. -/
def PartitionOK : Node → Prop
  | .leaf _ => True
  | .inner d m l r =>
    (∀ p ∈ allPts l, coordAt d p < m) ∧ (∀ p ∈ allPts r, m ≤ coordAt d p) ∧
      PartitionOK l ∧ PartitionOK r

/-- The partition invariant is decidable, so that concrete trees can be
checked by evaluation. -/
def decPartitionOK : (nd : Node) → Decidable (PartitionOK nd)
  | .leaf _ => .isTrue trivial
  | .inner d m l r =>
    haveI := decPartitionOK l
    haveI := decPartitionOK r
    inferInstanceAs (Decidable ((∀ p ∈ allPts l, coordAt d p < m) ∧
      (∀ p ∈ allPts r, m ≤ coordAt d p) ∧ PartitionOK l ∧ PartitionOK r))

instance (nd : Node) : Decidable (PartitionOK nd) := decPartitionOK nd

/-- Structural invariant used by the query-correctness proof: the partition
invariant together with the fact that every splitting dimension is below the
dimensionality D. -/
inductive Inv (D : ℕ) : Node → Prop
  | leaf (pts : List (ℕ × Point)) : Inv D (.leaf pts)
  | inner (d : ℕ) (m : ℚ) (l r : Node) (hd : d < D)
      (hl : ∀ p ∈ allPts l, coordAt d p < m)
      (hr : ∀ p ∈ allPts r, m ≤ coordAt d p)
      (il : Inv D l) (ir : Inv D r) : Inv D (.inner d m l r)

instance : IsTotal (ℕ × ℚ) (fun a b : ℕ × ℚ => a.2 ≤ b.2) :=
  ⟨fun a b => le_total a.2 b.2⟩

instance : IsTrans (ℕ × ℚ) (fun a b : ℕ × ℚ => a.2 ≤ b.2) :=
  ⟨fun _ _ _ h1 h2 => le_trans h1 h2⟩

end KNN

namespace NB

/-- The pair of matrices produced by np.meshgrid(x, y) in the notebook: the
first repeats the row x once per entry of y, the second holds a constant
row for each entry of y. -/
def meshgridXY (x y : List ℚ) : List (List ℚ) × List (List ℚ) :=
  (y.map (fun _ => x), y.map (fun b => x.map (fun _ => b)))

/-- Row-major flattening, as performed by ravel() in the notebook. -/
def ravel (m : List (List ℚ)) : List ℚ := m.flatten

/-- The evaluation grid of the notebook: both meshgrid outputs are raveled,
stacked with np.vstack and transposed, which pairs the entries
position-wise. -/
def Xgrid (x y : List ℚ) : List (ℚ × ℚ) :=
  (ravel (meshgridXY x y).1).zip (ravel (meshgridXY x y).2)

/-- The two filtering steps applied to the generated sample in the
density-estimation demonstration of the notebook. -/
def filteredSample (xs : List ℚ) : List ℚ :=
  (xs.filter (fun a => -10 < a)).filter (fun a => a < 30)

end NB

namespace KNN

open scoped List

theorem length_leftPts_add_rightPts (d : ℕ) (m : ℚ) (pts : List (ℕ × Point)) :
    (leftPts d m pts).length + (rightPts d m pts).length = pts.length := by
  have h := List.length_eq_countP_add_countP (fun p => decide (coordAt d p < m)) pts
  simp only [decide_not, Bool.decide_coe] at h
  simp only [leftPts, rightPts, ← List.countP_eq_length_filter, decide_not]
  exact h.symm

theorem splitVal_mem (d : ℕ) (pts : List (ℕ × Point)) (h : pts ≠ []) :
    ∃ p ∈ pts, coordAt d p = splitVal d pts := by
  have hlen : (sortQ (pts.map (coordAt d))).length = pts.length := by
    simp [sortQ, (List.perm_insertionSort _ _).length_eq]
  have hpos : 0 < pts.length := List.length_pos.mpr h
  have hidx : pts.length / 2 < (sortQ (pts.map (coordAt d))).length := by
    rw [hlen]; exact Nat.div_lt_self hpos one_lt_two
  have hmem : splitVal d pts ∈ sortQ (pts.map (coordAt d)) := by
    rw [splitVal, List.getD_eq_getElem?_getD, List.getElem?_eq_getElem hidx]
    exact List.getElem_mem hidx
  have hmem2 : splitVal d pts ∈ pts.map (coordAt d) :=
    (List.perm_insertionSort _ _).mem_iff.mp hmem
  obtain ⟨p, hp, hc⟩ := List.mem_map.mp hmem2
  exact ⟨p, hp, hc⟩

theorem rightPts_length_pos (d : ℕ) (pts : List (ℕ × Point)) (h : pts ≠ []) :
    0 < (rightPts d (splitVal d pts) pts).length := by
  obtain ⟨p, hp, hc⟩ := splitVal_mem d pts h
  have hmem : p ∈ rightPts d (splitVal d pts) pts := by
    simp only [rightPts, List.mem_filter]
    exact ⟨hp, by simp [hc]⟩
  exact List.length_pos.mpr (List.ne_nil_of_mem hmem)

theorem dl_insertPair (e : ℕ × ℚ) (q : List (ℕ × ℚ)) :
    dl (insertPair e q) = insLE e.2 (dl q) := by
  induction q with
  | nil => rfl
  | cons x xs ih =>
    by_cases h : x.2 ≤ e.2 <;> simp [insertPair, insLE, dl, h] <;>
      simpa [dl] using ih

theorem dl_offer (k : ℕ) (q : List (ℕ × ℚ)) (e : ℕ × ℚ) :
    dl (offer k q e) = (insLE e.2 (dl q)).take k := by
  rw [offer, dl, List.map_take, ← dl, dl_insertPair]

theorem insLE_perm (a : ℚ) (s : List ℚ) : insLE a s ~ a :: s := by
  induction s with
  | nil => rfl
  | cons x xs ih =>
    by_cases h : x ≤ a
    · simpa [insLE, h] using (ih.cons x).trans (List.Perm.swap a x xs)
    · simp [insLE, h]

theorem mem_insLE {a b : ℚ} {s : List ℚ} (h : b ∈ insLE a s) : b = a ∨ b ∈ s := by
  have := (insLE_perm a s).mem_iff.mp h
  simpa using this

theorem Sorted.insLE {a : ℚ} {s : List ℚ} (hs : s.Sorted (· ≤ ·)) :
    (insLE a s).Sorted (· ≤ ·) := by
  induction s with
  | nil => simp [KNN.insLE]
  | cons x xs ih =>
    rw [List.sorted_cons] at hs
    by_cases h : x ≤ a
    · rw [KNN.insLE, if_pos h, List.sorted_cons]
      refine ⟨fun b hb => ?_, ih hs.2⟩
      rcases mem_insLE hb with rfl | hb
      · exact h
      · exact hs.1 b hb
    · rw [KNN.insLE, if_neg h, List.sorted_cons]
      exact ⟨fun b hb => by
        rcases List.mem_cons.mp hb with rfl | hb
        · exact le_of_not_le h
        · exact le_trans (le_of_not_le h) (hs.1 b hb), List.sorted_cons.mpr hs⟩

theorem lastD_mem {l : List ℚ} (h : l ≠ []) : lastD l ∈ l := by
  induction l with
  | nil => exact absurd rfl h
  | cons x xs ih =>
    cases xs with
    | nil => simp [lastD]
    | cons y ys => simpa [lastD] using Or.inr (ih (by simp))

theorem sorted_le_lastD {l : List ℚ} (hs : l.Sorted (· ≤ ·)) {b : ℚ} (hb : b ∈ l) :
    b ≤ lastD l := by
  induction l with
  | nil => simp at hb
  | cons x xs ih =>
    rw [List.sorted_cons] at hs
    cases xs with
    | nil => simp at hb; simp [lastD, hb]
    | cons y ys =>
      rw [lastD]
      rcases List.mem_cons.mp hb with rfl | hb
      · exact hs.1 _ (lastD_mem (by simp))
      · exact ih hs.2 hb

theorem take_insLE_congr (e : ℚ) :
    ∀ (a : List ℚ) (b : List ℚ) (k : ℕ), a.take k = b.take k →
      (insLE e a).take k = (insLE e b).take k := by
  intro a
  induction a with
  | nil =>
    intro b k hab
    cases k with
    | zero => simp
    | succ j =>
      have : b = [] := by
        have := hab.symm
        rw [List.take_nil, List.take_eq_nil_iff] at this
        exact this.resolve_left (by simp)
      rw [this]
  | cons x xs ih =>
    intro b k hab
    cases k with
    | zero => simp
    | succ j =>
      cases b with
      | nil => simp at hab
      | cons y ys =>
        simp only [List.take_succ_cons, List.cons.injEq] at hab
        obtain ⟨rfl, htail⟩ := hab
        by_cases h : x ≤ e
        · rw [insLE, if_pos h, insLE, if_pos h, List.take_succ_cons,
            List.take_succ_cons, ih ys j htail]
        · rw [insLE, if_neg h, insLE, if_neg h, List.take_succ_cons,
            List.take_succ_cons]
          have h2 : (x :: xs).take j = (x :: ys).take j := by
            have : ∀ l : List ℚ, List.take j l = List.take j (List.take (j + 1) l) := by
              intro l; rw [List.take_take, Nat.min_eq_left (Nat.le_succ j)]
            rw [this (x :: xs), this (x :: ys), List.take_succ_cons,
              List.take_succ_cons, htail]
          rw [h2]

theorem take_insAll_congr (k : ℕ) :
    ∀ (X : List ℚ) (a b : List ℚ), a.take k = b.take k →
      (insAll a X).take k = (insAll b X).take k := by
  intro X
  induction X with
  | nil => intro a b hab; simpa [insAll] using hab
  | cons x xs ih =>
    intro a b hab
    simp only [insAll, List.foldl_cons]
    exact ih (insLE x a) (insLE x b) (take_insLE_congr x a b k hab)

theorem take_insLE_absorb :
    ∀ (s : List ℚ) (k : ℕ) (a : ℚ), k ≤ s.length → (∀ b ∈ s.take k, b ≤ a) →
      (insLE a s).take k = s.take k := by
  intro s
  induction s with
  | nil =>
    intro k a hk _
    have hz : k = 0 := by simpa using hk
    subst hz; simp
  | cons x xs ih =>
    intro k a hk hle
    cases k with
    | zero => simp
    | succ j =>
      have hx : x ≤ a := hle x (by simp)
      rw [insLE, if_pos hx, List.take_succ_cons, List.take_succ_cons,
        ih j a (by simpa using hk) (fun b hb => hle b (by simp [hb]))]

theorem take_insAll_absorb (k : ℕ) :
    ∀ (X : List ℚ) (s : List ℚ), k ≤ s.length → (∀ x ∈ X, ∀ b ∈ s.take k, b ≤ x) →
      (insAll s X).take k = s.take k := by
  intro X
  induction X with
  | nil => intro s _ _; simp [insAll]
  | cons x xs ih =>
    intro s hk hle
    simp only [insAll, List.foldl_cons]
    have h1 : (insLE x s).take k = s.take k :=
      take_insLE_absorb s k x hk (hle x (by simp))
    have h2 : (insAll (insLE x s) xs).take k = (insLE x s).take k := by
      refine ih (insLE x s) ?_ ?_
      · rw [(insLE_perm x s).length_eq]; exact le_trans hk (by simp)
      · intro y hy b hb
        rw [h1] at hb
        exact hle y (by simp [hy]) b hb
    rw [insAll] at h2
    rw [h2, h1]

theorem insAll_perm : ∀ (X : List ℚ) (s : List ℚ), insAll s X ~ s ++ X := by
  intro X
  induction X with
  | nil => intro s; simp [insAll]
  | cons x xs ih =>
    intro s
    simp only [insAll, List.foldl_cons]
    have h1 : insAll (insLE x s) xs ~ insLE x s ++ xs := ih (insLE x s)
    refine h1.trans ?_
    calc insLE x s ++ xs ~ (x :: s) ++ xs := (insLE_perm x s).append_right xs
      _ ~ s ++ x :: xs := by
          simpa using (@List.perm_middle ℚ x s xs).symm

theorem insAll_sorted : ∀ (X : List ℚ) (s : List ℚ), s.Sorted (· ≤ ·) →
    (insAll s X).Sorted (· ≤ ·) := by
  intro X
  induction X with
  | nil => intro s hs; simpa [insAll] using hs
  | cons x xs ih =>
    intro s hs
    simp only [insAll, List.foldl_cons]
    exact ih (insLE x s) (Sorted.insLE hs)

theorem sortQ_sorted (l : List ℚ) : (sortQ l).Sorted (· ≤ ·) :=
  List.sorted_insertionSort _ l

theorem sortQ_perm (l : List ℚ) : sortQ l ~ l := List.perm_insertionSort _ l

theorem sortQ_congr {l l' : List ℚ} (h : l ~ l') : sortQ l = sortQ l' :=
  List.eq_of_perm_of_sorted ((sortQ_perm l).trans (h.trans (sortQ_perm l').symm))
    (sortQ_sorted l) (sortQ_sorted l')

theorem sortQ_eq_insAll (s X : List ℚ) (hs : s.Sorted (· ≤ ·)) :
    sortQ (s ++ X) = insAll s X :=
  List.eq_of_perm_of_sorted ((sortQ_perm _).trans (insAll_perm X s).symm)
    (sortQ_sorted _) (insAll_sorted X s hs)

theorem sortQ_eq_self {l : List ℚ} (hl : l.Sorted (· ≤ ·)) : sortQ l = l :=
  List.Sorted.insertionSort_eq hl

theorem rightPts_eq_filter_not (d : ℕ) (m : ℚ) (pts : List (ℕ × Point)) :
    rightPts d m pts = pts.filter (fun p => !(decide (coordAt d p < m))) := by
  rw [rightPts]
  exact List.filter_congr (fun p _ => decide_not)

theorem buildNode_nil (cap D fuel depth : ℕ) :
    buildNode cap D fuel depth [] = .leaf [] := by
  cases fuel with
  | zero => rfl
  | succ n =>
    rw [buildNode]
    simp

theorem mem_leftPts {d : ℕ} {m : ℚ} {pts : List (ℕ × Point)} {p : ℕ × Point}
    (h : p ∈ leftPts d m pts) : p ∈ pts ∧ coordAt d p < m := by
  have := List.mem_filter.mp h
  exact ⟨this.1, by simpa using this.2⟩

theorem mem_rightPts {d : ℕ} {m : ℚ} {pts : List (ℕ × Point)} {p : ℕ × Point}
    (h : p ∈ rightPts d m pts) : p ∈ pts ∧ m ≤ coordAt d p := by
  have := List.mem_filter.mp h
  refine ⟨this.1, ?_⟩
  have h2 : ¬ coordAt d p < m := by simpa using this.2
  exact le_of_not_lt h2

theorem allPts_buildNode (cap D : ℕ) :
    ∀ (n depth : ℕ) (pts : List (ℕ × Point)), pts.length ≤ n →
      allPts (buildNode cap D n depth pts) ~ pts := by
  intro n
  induction n with
  | zero =>
    intro depth pts _
    exact List.Perm.refl _
  | succ n ih =>
    intro depth pts hlen
    rw [buildNode]
    split_ifs with h1 h2
    · exact List.Perm.refl _
    · exact List.Perm.refl _
    · have hadd := length_leftPts_add_rightPts (depth % D) (splitVal (depth % D) pts) pts
      have hne : pts ≠ [] := fun hnil => h1 (by simp [hnil])
      have hrpos := rightPts_length_pos (depth % D) pts hne
      have ihl := ih (depth + 1) (leftPts (depth % D) (splitVal (depth % D) pts) pts)
        (by omega)
      have ihr := ih (depth + 1) (rightPts (depth % D) (splitVal (depth % D) pts) pts)
        (by omega)
      have hfil := List.filter_append_perm
        (fun p => decide (coordAt (depth % D) p < splitVal (depth % D) pts)) pts
      rw [allPts]
      refine (ihl.append ihr).trans ?_
      rw [leftPts, rightPts_eq_filter_not]
      exact hfil

theorem partitionOK_buildNode (cap D : ℕ) :
    ∀ (n depth : ℕ) (pts : List (ℕ × Point)), pts.length ≤ n →
      PartitionOK (buildNode cap D n depth pts) := by
  intro n
  induction n with
  | zero =>
    intro depth pts _
    exact trivial
  | succ n ih =>
    intro depth pts hlen
    rw [buildNode]
    split_ifs with h1 h2
    · trivial
    · trivial
    · have hadd := length_leftPts_add_rightPts (depth % D) (splitVal (depth % D) pts) pts
      have hne : pts ≠ [] := fun hnil => h1 (by simp [hnil])
      have hrpos := rightPts_length_pos (depth % D) pts hne
      have hlperm := allPts_buildNode cap D n (depth + 1)
        (leftPts (depth % D) (splitVal (depth % D) pts) pts) (by omega)
      have hrperm := allPts_buildNode cap D n (depth + 1)
        (rightPts (depth % D) (splitVal (depth % D) pts) pts) (by omega)
      refine ⟨?_, ?_, ih (depth + 1) _ (by omega), ih (depth + 1) _ (by omega)⟩
      · intro p hp
        exact (mem_leftPts (hlperm.mem_iff.mp hp)).2
      · intro p hp
        exact (mem_rightPts (hrperm.mem_iff.mp hp)).2

theorem getD_zero_of_all_zero {l : List ℚ} (h : ∀ x ∈ l, x = 0) (i : ℕ) :
    l.getD i 0 = 0 := by
  rw [List.getD_eq_getElem?_getD]
  rcases lt_or_le i l.length with hi | hi
  · rw [List.getElem?_eq_getElem hi]
    exact h _ (List.getElem_mem hi)
  · rw [List.getElem?_eq_none hi]
    rfl

theorem inv_buildNode (cap D : ℕ) :
    ∀ (n depth : ℕ) (pts : List (ℕ × Point)), pts.length ≤ n →
      (∀ p ∈ pts, p.2.length = D) → Inv D (buildNode cap D n depth pts) := by
  intro n
  induction n with
  | zero =>
    intro depth pts _ _
    exact Inv.leaf _
  | succ n ih =>
    intro depth pts hlen hdim
    rw [buildNode]
    split_ifs with h1 h2
    · exact Inv.leaf _
    · exact Inv.leaf _
    · have hadd := length_leftPts_add_rightPts (depth % D) (splitVal (depth % D) pts) pts
      have hne : pts ≠ [] := fun hnil => h1 (by simp [hnil])
      have hrpos := rightPts_length_pos (depth % D) pts hne
      have hD : D ≠ 0 := by
        intro hD0
        subst hD0
        simp only [Nat.mod_zero] at h2
        have hzero : ∀ p ∈ pts, coordAt depth p = 0 := by
          intro p hp
          have : p.2 = [] := List.length_eq_zero.mp (hdim p hp)
          simp [coordAt, this]
        have hm : splitVal depth pts = 0 := by
          rw [splitVal]
          refine getD_zero_of_all_zero ?_ _
          intro x hx
          have hx2 : x ∈ pts.map (coordAt depth) :=
            (sortQ_perm _).mem_iff.mp hx
          obtain ⟨p, hp, rfl⟩ := List.mem_map.mp hx2
          exact hzero p hp
        apply h2
        rw [hm]
        have hnil : leftPts depth 0 pts = [] := by
          apply List.filter_eq_nil_iff.mpr
          intro p hp
          simp [hzero p hp]
        rw [hnil]
        rfl
      have hlperm := allPts_buildNode cap D n (depth + 1)
        (leftPts (depth % D) (splitVal (depth % D) pts) pts) (by omega)
      have hrperm := allPts_buildNode cap D n (depth + 1)
        (rightPts (depth % D) (splitVal (depth % D) pts) pts) (by omega)
      refine Inv.inner _ _ _ _ (Nat.mod_lt depth (Nat.pos_of_ne_zero hD)) ?_ ?_
        (ih (depth + 1) _ (by omega) ?_) (ih (depth + 1) _ (by omega) ?_)
      · intro p hp
        exact (mem_leftPts (hlperm.mem_iff.mp hp)).2
      · intro p hp
        exact (mem_rightPts (hrperm.mem_iff.mp hp)).2
      · intro p hp
        exact hdim p (mem_leftPts hp).1
      · intro p hp
        exact hdim p (mem_rightPts hp).1

theorem sqDist_cons (x y : ℚ) (xs ys : Point) :
    sqDist (x :: xs) (y :: ys) = (x - y) ^ 2 + sqDist xs ys := rfl

theorem sqDist_nonneg (p q : Point) : 0 ≤ sqDist p q := by
  induction p generalizing q with
  | nil => simp [sqDist]
  | cons x xs ih =>
    cases q with
    | nil => simp [sqDist]
    | cons y ys =>
      rw [sqDist_cons]
      have := ih ys
      positivity

theorem sq_coordAt_le_sqDist (p t : Point) (d : ℕ) (hp : d < p.length)
    (ht : d < t.length) : (p.getD d 0 - t.getD d 0) ^ 2 ≤ sqDist p t := by
  induction p generalizing t d with
  | nil => simp at hp
  | cons x xs ih =>
    cases t with
    | nil => simp at ht
    | cons y ys =>
      cases d with
      | zero =>
        rw [sqDist_cons, List.getD_cons_zero, List.getD_cons_zero]
        exact le_add_of_nonneg_right (sqDist_nonneg xs ys)
      | succ j =>
        rw [sqDist_cons, List.getD_cons_succ, List.getD_cons_succ]
        have := ih ys j (by simpa using hp) (by simpa using ht)
        have hnn : 0 ≤ (x - y) ^ 2 := sq_nonneg _
        linarith

theorem length_dl (q : List (ℕ × ℚ)) : (dl q).length = q.length :=
  List.length_map _ _

theorem dl_entriesOf (t : Point) (pts : List (ℕ × Point)) :
    dl (entriesOf t pts) = pts.map (fun p => sqDist p.2 t) := by
  simp [dl, entriesOf]

theorem entriesOf_append (t : Point) (a b : List (ℕ × Point)) :
    entriesOf t (a ++ b) = entriesOf t a ++ entriesOf t b := by
  simp [entriesOf]

theorem dl_append (a b : List (ℕ × ℚ)) : dl (a ++ b) = dl a ++ dl b := by
  simp [dl]

theorem take_sortQ_congr (k : ℕ) {a b : List ℚ} (X : List ℚ)
    (ha : a.Sorted (· ≤ ·)) (hb : b.Sorted (· ≤ ·)) (hab : a.take k = b.take k) :
    (sortQ (a ++ X)).take k = (sortQ (b ++ X)).take k := by
  rw [sortQ_eq_insAll a X ha, sortQ_eq_insAll b X hb]
  exact take_insAll_congr k X a b hab

theorem scanLeaf_nil (k : ℕ) (t : Point) (q : List (ℕ × ℚ)) :
    scanLeaf k t [] q = q := rfl

theorem scanLeaf_cons (k : ℕ) (t : Point) (p : ℕ × Point)
    (ps : List (ℕ × Point)) (q : List (ℕ × ℚ)) :
    scanLeaf k t (p :: ps) q = scanLeaf k t ps (offer k q (p.1, sqDist p.2 t)) := rfl

theorem sorted_dl_offer {k : ℕ} {q : List (ℕ × ℚ)} {e : ℕ × ℚ}
    (hs : (dl q).Sorted (· ≤ ·)) : (dl (offer k q e)).Sorted (· ≤ ·) := by
  rw [dl_offer]
  exact List.Pairwise.sublist (List.take_sublist _ _) (Sorted.insLE hs)

theorem length_offer_le (k : ℕ) (q : List (ℕ × ℚ)) (e : ℕ × ℚ) :
    (offer k q e).length ≤ k := by
  rw [offer, List.length_take]
  exact min_le_left _ _

theorem dl_scanLeaf (k : ℕ) (t : Point) :
    ∀ (pts : List (ℕ × Point)) (q : List (ℕ × ℚ)),
      (dl q).Sorted (· ≤ ·) → q.length ≤ k →
      dl (scanLeaf k t pts q) = (sortQ (dl q ++ dl (entriesOf t pts))).take k := by
  intro pts
  induction pts with
  | nil =>
    intro q hs hk
    rw [scanLeaf_nil]
    have : dl (entriesOf t ([] : List (ℕ × Point))) = [] := rfl
    rw [this, List.append_nil, sortQ_eq_self hs]
    exact (List.take_of_length_le (by rw [length_dl]; exact hk)).symm
  | cons p ps ih =>
    intro q hs hk
    rw [scanLeaf_cons]
    have hq' : dl (scanLeaf k t ps (offer k q (p.1, sqDist p.2 t))) =
        (sortQ (dl (offer k q (p.1, sqDist p.2 t)) ++ dl (entriesOf t ps))).take k :=
      ih _ (sorted_dl_offer hs) (length_offer_le k q _)
    rw [hq', dl_offer]
    have hins : insLE (p.1, sqDist p.2 t).2 (dl q) ~
        (sqDist p.2 t) :: dl q := insLE_perm _ _
    have hsorted_ins : (insLE (p.1, sqDist p.2 t).2 (dl q)).Sorted (· ≤ ·) :=
      Sorted.insLE hs
    have h1 : ((sortQ ((insLE (p.1, sqDist p.2 t).2 (dl q)).take k ++
        dl (entriesOf t ps)))).take k =
        ((sortQ ((insLE (p.1, sqDist p.2 t).2 (dl q)) ++ dl (entriesOf t ps)))).take k := by
      refine take_sortQ_congr k _ ?_ hsorted_ins ?_
      · exact List.Pairwise.sublist (List.take_sublist _ _) hsorted_ins
      · rw [List.take_take, Nat.min_self]
    rw [h1]
    have h2 : sortQ ((insLE (p.1, sqDist p.2 t).2 (dl q)) ++ dl (entriesOf t ps)) =
        sortQ (dl q ++ dl (entriesOf t (p :: ps))) := by
      apply sortQ_congr
      have hc : dl (entriesOf t (p :: ps)) = sqDist p.2 t :: dl (entriesOf t ps) := rfl
      rw [hc]
      calc insLE (p.1, sqDist p.2 t).2 (dl q) ++ dl (entriesOf t ps)
          ~ (sqDist p.2 t :: dl q) ++ dl (entriesOf t ps) :=
            hins.append_right _
        _ ~ dl q ++ sqDist p.2 t :: dl (entriesOf t ps) := by
            simpa using
              (@List.perm_middle ℚ (sqDist p.2 t) (dl q) (dl (entriesOf t ps))).symm
    rw [h2]

theorem queryNode_leaf (k : ℕ) (t : Point) (pts : List (ℕ × Point))
    (q : List (ℕ × ℚ)) : queryNode k t (.leaf pts) q = scanLeaf k t pts q := rfl

theorem queryNode_inner (k : ℕ) (t : Point) (d : ℕ) (m : ℚ) (l r : Node)
    (q : List (ℕ × ℚ)) :
    queryNode k t (.inner d m l r) q =
      if t.getD d 0 < m then
        (if (queryNode k t l q).length < k ∨
            (m - t.getD d 0) ^ 2 < worstOf (queryNode k t l q)
         then queryNode k t r (queryNode k t l q) else queryNode k t l q)
      else
        (if (queryNode k t r q).length < k ∨
            (t.getD d 0 - m) ^ 2 < worstOf (queryNode k t r q)
         then queryNode k t l (queryNode k t r q) else queryNode k t r q) := rfl

theorem step_dl (k : ℕ) (t : Point) (far : Node) (bound : ℚ)
    (q1 : List (ℕ × ℚ)) (S : List ℚ)
    (ihfar : ∀ q, (dl q).Sorted (· ≤ ·) → q.length ≤ k →
      dl (queryNode k t far q) = (sortQ (dl q ++ dl (entriesOf t (allPts far)))).take k)
    (hfarge : ∀ p ∈ allPts far, bound ≤ sqDist p.2 t)
    (hS : S.Sorted (· ≤ ·)) (hq1 : dl q1 = S.take k) :
    dl (if q1.length < k ∨ bound < worstOf q1 then queryNode k t far q1 else q1) =
      (sortQ (S ++ dl (entriesOf t (allPts far)))).take k := by
  have hq1sorted : (dl q1).Sorted (· ≤ ·) := by
    rw [hq1]; exact List.Pairwise.sublist (List.take_sublist _ _) hS
  have hq1len : q1.length ≤ k := by
    rw [← length_dl, hq1, List.length_take]
    exact min_le_left _ _
  split_ifs with hcond
  · rw [ihfar q1 hq1sorted hq1len, hq1]
    refine take_sortQ_congr k _ ?_ hS ?_
    · exact List.Pairwise.sublist (List.take_sublist _ _) hS
    · rw [List.take_take, Nat.min_self]
  · push_neg at hcond
    obtain ⟨hfull, hworst⟩ := hcond
    have hSk : k ≤ S.length := by
      have : q1.length = min k S.length := by
        rw [← length_dl, hq1, List.length_take]
      omega
    rw [sortQ_eq_insAll S _ hS]
    rw [take_insAll_absorb k _ S hSk ?_]
    · exact hq1
    · intro x hx b hb
      rw [dl_entriesOf] at hx
      obtain ⟨p, hp, rfl⟩ := List.mem_map.mp hx
      have hble : b ≤ worstOf q1 := by
        rw [← hq1] at hb
        exact sorted_le_lastD hq1sorted hb
      exact le_trans hble (le_trans hworst (hfarge p hp))

theorem queryNode_dl (k : ℕ) (t : Point) (D : ℕ) :
    ∀ (nd : Node) (q : List (ℕ × ℚ)), Inv D nd →
      (∀ p ∈ allPts nd, p.2.length = D) → t.length = D →
      (dl q).Sorted (· ≤ ·) → q.length ≤ k →
      dl (queryNode k t nd q) = (sortQ (dl q ++ dl (entriesOf t (allPts nd)))).take k := by
  intro nd
  induction nd with
  | leaf pts =>
    intro q _ _ _ hs hk
    exact dl_scanLeaf k t pts q hs hk
  | inner d m l r ihl ihr =>
    intro q hinv hdim ht hs hk
    cases hinv with
    | inner _ _ _ _ hd hlc hrc il ir =>
    have hdiml : ∀ p ∈ allPts l, p.2.length = D := by
      intro p hp; exact hdim p (by rw [allPts]; exact List.mem_append_left _ hp)
    have hdimr : ∀ p ∈ allPts r, p.2.length = D := by
      intro p hp; exact hdim p (by rw [allPts]; exact List.mem_append_right _ hp)
    have hXsplit : dl (entriesOf t (allPts (.inner d m l r))) =
        dl (entriesOf t (allPts l)) ++ dl (entriesOf t (allPts r)) := by
      rw [allPts, entriesOf_append, dl_append]
    rw [queryNode_inner]
    by_cases hside : t.getD d 0 < m
    · rw [if_pos hside]
      have hq1 : dl (queryNode k t l q) =
          (sortQ (dl q ++ dl (entriesOf t (allPts l)))).take k :=
        ihl q il hdiml ht hs hk
      have hstep := step_dl k t r ((m - t.getD d 0) ^ 2) (queryNode k t l q)
        (sortQ (dl q ++ dl (entriesOf t (allPts l))))
        (fun q' hs' hk' => ihr q' ir hdimr ht hs' hk')
        ?_ (sortQ_sorted _) hq1
      · rw [hstep, hXsplit]
        congr 1
        apply sortQ_congr
        calc sortQ (dl q ++ dl (entriesOf t (allPts l))) ++ dl (entriesOf t (allPts r))
            ~ (dl q ++ dl (entriesOf t (allPts l))) ++ dl (entriesOf t (allPts r)) :=
              (sortQ_perm _).append_right _
          _ = dl q ++ (dl (entriesOf t (allPts l)) ++ dl (entriesOf t (allPts r))) := by
              rw [List.append_assoc]
      · intro p hp
        have h1 : (p.2.getD d 0 - t.getD d 0) ^ 2 ≤ sqDist p.2 t :=
          sq_coordAt_le_sqDist p.2 t d (by rw [hdimr p hp]; exact hd)
            (by rw [ht]; exact hd)
        have h2 : m ≤ coordAt d p := hrc p hp
        have h3 : (m - t.getD d 0) ^ 2 ≤ (p.2.getD d 0 - t.getD d 0) ^ 2 := by
          have hc : coordAt d p = p.2.getD d 0 := rfl
          rw [hc] at h2
          refine pow_le_pow_left (by linarith) (by linarith) 2
        exact le_trans h3 h1
    · rw [if_neg hside]
      have hmle : m ≤ t.getD d 0 := le_of_not_lt hside
      have hq1 : dl (queryNode k t r q) =
          (sortQ (dl q ++ dl (entriesOf t (allPts r)))).take k :=
        ihr q ir hdimr ht hs hk
      have hstep := step_dl k t l ((t.getD d 0 - m) ^ 2) (queryNode k t r q)
        (sortQ (dl q ++ dl (entriesOf t (allPts r))))
        (fun q' hs' hk' => ihl q' il hdiml ht hs' hk')
        ?_ (sortQ_sorted _) hq1
      · rw [hstep, hXsplit]
        congr 1
        apply sortQ_congr
        calc sortQ (dl q ++ dl (entriesOf t (allPts r))) ++ dl (entriesOf t (allPts l))
            ~ (dl q ++ dl (entriesOf t (allPts r))) ++ dl (entriesOf t (allPts l)) :=
              (sortQ_perm _).append_right _
          _ ~ dl q ++ (dl (entriesOf t (allPts l)) ++ dl (entriesOf t (allPts r))) := by
              rw [List.append_assoc]
              exact (@List.perm_append_comm ℚ (dl (entriesOf t (allPts r)))
                (dl (entriesOf t (allPts l)))).append_left _
      · intro p hp
        have h1 : (p.2.getD d 0 - t.getD d 0) ^ 2 ≤ sqDist p.2 t :=
          sq_coordAt_le_sqDist p.2 t d (by rw [hdiml p hp]; exact hd)
            (by rw [ht]; exact hd)
        have h2 : coordAt d p < m := hlc p hp
        have h3 : (t.getD d 0 - m) ^ 2 ≤ (p.2.getD d 0 - t.getD d 0) ^ 2 := by
          have hc : coordAt d p = p.2.getD d 0 := rfl
          rw [hc] at h2
          have h4 : (p.2.getD d 0 - t.getD d 0) ^ 2 = (t.getD d 0 - p.2.getD d 0) ^ 2 := by
            ring
          rw [h4]
          refine pow_le_pow_left (by linarith) (by linarith) 2
        exact le_trans h3 h1

theorem insertPair_perm (e : ℕ × ℚ) (q : List (ℕ × ℚ)) : insertPair e q ~ e :: q := by
  induction q with
  | nil => rfl
  | cons x xs ih =>
    by_cases h : x.2 ≤ e.2
    · simpa [insertPair, h] using (ih.cons x).trans (List.Perm.swap e x xs)
    · simp [insertPair, h]

theorem subperm_append_right_congr {l₁ l₂ r : List (ℕ × ℚ)} (h : l₁ <+~ l₂) :
    l₁ ++ r <+~ l₂ ++ r := by
  obtain ⟨u, hperm, hsub⟩ := h
  exact ⟨u ++ r, hperm.append_right r, hsub.append_right r⟩

theorem offer_subperm (k : ℕ) (q : List (ℕ × ℚ)) (e : ℕ × ℚ) :
    offer k q e <+~ e :: q :=
  (List.take_sublist _ _).subperm.trans (insertPair_perm e q).subperm

theorem scanLeaf_subperm (k : ℕ) (t : Point) :
    ∀ (pts : List (ℕ × Point)) (q : List (ℕ × ℚ)),
      scanLeaf k t pts q <+~ q ++ entriesOf t pts := by
  intro pts
  induction pts with
  | nil =>
    intro q
    rw [scanLeaf_nil]
    simp only [entriesOf, List.map_nil, List.append_nil]
    exact List.Subperm.refl q
  | cons p ps ih =>
    intro q
    rw [scanLeaf_cons]
    refine (ih (offer k q (p.1, sqDist p.2 t))).trans ?_
    refine (subperm_append_right_congr (offer_subperm k q _)).trans ?_
    have hc : entriesOf t (p :: ps) = (p.1, sqDist p.2 t) :: entriesOf t ps := rfl
    rw [hc]
    have : ((p.1, sqDist p.2 t) :: q) ++ entriesOf t ps ~
        q ++ (p.1, sqDist p.2 t) :: entriesOf t ps := by
      simpa using
        (@List.perm_middle (ℕ × ℚ) (p.1, sqDist p.2 t) q (entriesOf t ps)).symm
    exact this.subperm

theorem queryNode_subperm (k : ℕ) (t : Point) :
    ∀ (nd : Node) (q : List (ℕ × ℚ)),
      queryNode k t nd q <+~ q ++ entriesOf t (allPts nd) := by
  intro nd
  induction nd with
  | leaf pts =>
    intro q
    exact scanLeaf_subperm k t pts q
  | inner d m l r ihl ihr =>
    intro q
    have hsplit : entriesOf t (allPts (.inner d m l r)) =
        entriesOf t (allPts l) ++ entriesOf t (allPts r) := by
      rw [allPts, entriesOf_append]
    rw [queryNode_inner, hsplit]
    by_cases hside : t.getD d 0 < m
    · rw [if_pos hside]
      split_ifs with hcond
      · refine (ihr (queryNode k t l q)).trans ?_
        refine (subperm_append_right_congr (ihl q)).trans ?_
        rw [List.append_assoc]
      · refine (ihl q).trans ?_
        exact ⟨q ++ entriesOf t (allPts l), List.Perm.refl _, by
          rw [← List.append_assoc]
          exact List.sublist_append_left _ _⟩
    · rw [if_neg hside]
      split_ifs with hcond
      · refine (ihl (queryNode k t r q)).trans ?_
        refine (subperm_append_right_congr (ihr q)).trans ?_
        refine List.Perm.subperm ?_
        rw [List.append_assoc]
        exact (@List.perm_append_comm (ℕ × ℚ) (entriesOf t (allPts r))
          (entriesOf t (allPts l))).append_left _
      · refine (ihr q).trans ?_
        refine ⟨q ++ entriesOf t (allPts r), List.Perm.refl _, ?_⟩
        have h1 : q ++ entriesOf t (allPts r) <+
            q ++ (entriesOf t (allPts l) ++ entriesOf t (allPts r)) := by
          apply List.Sublist.append_left
          exact List.sublist_append_right _ _
        rw [← List.append_assoc] at h1
        rw [← List.append_assoc]
        exact h1

theorem tagFrom_length (i : ℕ) (l : List Point) : (tagFrom i l).length = l.length := by
  induction l generalizing i with
  | nil => rfl
  | cons p ps ih => simp [tagFrom, ih]

theorem map_snd_tagFrom (i : ℕ) (l : List Point) :
    (tagFrom i l).map Prod.snd = l := by
  induction l generalizing i with
  | nil => rfl
  | cons p ps ih => simp [tagFrom, ih]

theorem map_fst_tagFrom (i : ℕ) (l : List Point) :
    (tagFrom i l).map Prod.fst = List.range' i l.length := by
  induction l generalizing i with
  | nil => rfl
  | cons p ps ih => simp [tagFrom, ih, List.range'_succ]

theorem mem_tagFrom (i : ℕ) (l : List Point) (e : ℕ × Point) :
    e ∈ tagFrom i l → ∃ j, j < l.length ∧ e = (i + j, l.getD j []) := by
  induction l generalizing i with
  | nil => intro h; simp [tagFrom] at h
  | cons p ps ih =>
    intro h
    rw [tagFrom, List.mem_cons] at h
    rcases h with rfl | h
    · exact ⟨0, by simp, by simp⟩
    · obtain ⟨j, hj, hje⟩ := ih (i + 1) h
      refine ⟨j + 1, by simpa using hj, ?_⟩
      rw [hje]
      simp [Nat.add_assoc, Nat.add_comm 1 j]

theorem snd_mem_of_mem_tagFrom {i : ℕ} {l : List Point} {e : ℕ × Point}
    (h : e ∈ tagFrom i l) : e.2 ∈ l := by
  have := List.mem_map_of_mem Prod.snd h
  rwa [map_snd_tagFrom] at this

theorem nodup_fst_tagged (points : List Point) :
    ((tagged points).map Prod.fst).Nodup := by
  rw [tagged, map_fst_tagFrom]
  exact List.nodup_range' 0 points.length

theorem build_ok_elim {points : List Point} {cap : ℕ} {tr : Tree}
    (hB : Build points cap = .ok tr) :
    points ≠ [] ∧ 1 ≤ cap ∧ tr.dim = (points.headD []).length ∧
      tr.root = buildNode cap ((points.headD []).length) points.length 0 (tagged points) := by
  by_cases h : points = [] ∨ cap < 1
  · rw [Build, if_pos h] at hB
    exact absurd hB (by simp)
  · rw [Build, if_neg h] at hB
    push_neg at h
    have heq := Except.ok.inj hB
    subst heq
    exact ⟨h.1, by omega, rfl, rfl⟩

theorem dl_bruteKnn (points : List Point) (t : Point) (k : ℕ) :
    dl (bruteKnn points t k) = (sortQ (dl (entriesOf t (tagged points)))).take k := by
  rw [bruteKnn, dl, List.map_take, ← dl]
  congr 1
  apply List.eq_of_perm_of_sorted
    (r := (fun x y => x ≤ y : ℚ → ℚ → Prop))
  · calc dl ((entriesOf t (tagged points)).insertionSort (fun a b => a.2 ≤ b.2))
        ~ dl (entriesOf t (tagged points)) := (List.perm_insertionSort _ _).map _
      _ ~ sortQ (dl (entriesOf t (tagged points))) := (sortQ_perm _).symm
  · rw [dl, List.Sorted, List.pairwise_map]
    exact List.sorted_insertionSort _ _
  · exact sortQ_sorted _

theorem query_ok_spec {points : List Point} {cap k : ℕ} {t : Point} {tr : Tree}
    (hB : Build points cap = .ok tr) (hdim : ∀ p ∈ points, p.length = t.length)
    (hk : 1 ≤ k) :
    Query tr t k = .ok (queryNode k t tr.root []) ∧
    dl (queryNode k t tr.root []) =
      (sortQ (dl (entriesOf t (tagged points)))).take k ∧
    queryNode k t tr.root [] <+~ entriesOf t (tagged points) := by
  obtain ⟨hne, hcap, hdimtr, hroot⟩ := build_ok_elim hB
  have ht : t.length = tr.dim := by
    obtain ⟨p0, ps, rfl⟩ := List.exists_cons_of_ne_nil hne
    rw [hdimtr]
    exact (hdim p0 (by simp)).symm
  have hQ : Query tr t k = .ok (queryNode k t tr.root []) := by
    rw [Query, if_neg]
    push_neg
    exact ⟨by omega, ht⟩
  have hperm : allPts tr.root ~ tagged points := by
    rw [hroot]
    exact allPts_buildNode cap _ points.length 0 (tagged points)
      (by rw [tagged, tagFrom_length])
  have hdims : ∀ p ∈ allPts tr.root, p.2.length = tr.dim := by
    intro p hp
    have hp2 : p ∈ tagged points := hperm.mem_iff.mp hp
    rw [← ht]
    exact hdim p.2 (snd_mem_of_mem_tagFrom hp2)
  have hinv : Inv tr.dim tr.root := by
    rw [hroot, ← hdimtr]
    refine inv_buildNode cap tr.dim points.length 0 (tagged points)
      (by rw [tagged, tagFrom_length]) ?_
    intro p hp
    rw [← ht]
    exact hdim p.2 (snd_mem_of_mem_tagFrom hp)
  have hmain := queryNode_dl k t tr.dim tr.root [] hinv hdims ht
    (by rw [show dl [] = ([] : List ℚ) from rfl]; exact List.sorted_nil)
    (by simp)
  refine ⟨hQ, ?_, ?_⟩
  · rw [hmain]
    have h0 : dl ([] : List (ℕ × ℚ)) ++ dl (entriesOf t (allPts tr.root)) =
        dl (entriesOf t (allPts tr.root)) := by
      rw [show dl ([] : List (ℕ × ℚ)) = [] from rfl, List.nil_append]
    rw [h0]
    congr 1
    apply sortQ_congr
    exact (hperm.map _).map _
  · have hsub := queryNode_subperm k t tr.root []
    rw [List.nil_append] at hsub
    exact hsub.trans (List.Perm.subperm (hperm.map _))

/-- C1 (amended): for every point set, target of matching dimensionality
and positive k, the result computed through the spatial index (Build
followed by Query) has exactly the same ascending distance list as the
brute-force scan, and every returned pair is a genuine (identifier,
distance) entry of a distinct input point; at tied distances the
identifiers themselves may differ from the brute-force scan. -/
theorem query_matches_bruteforce_distances (points : List Point) (cap k : ℕ)
    (t : Point) (tr : Tree) (hB : Build points cap = .ok tr)
    (hdim : ∀ p ∈ points, p.length = t.length) (hk : 1 ≤ k) :
    ∃ r, Query tr t k = .ok r ∧ dl r = dl (bruteKnn points t k) ∧
      r <+~ entriesOf t (tagged points) := by
  obtain ⟨hQ, hdl, hsub⟩ := query_ok_spec hB hdim hk
  exact ⟨queryNode k t tr.root [], hQ, by rw [hdl, dl_bruteKnn], hsub⟩

/-- C2 (amended): a Query on a tree built from a non-empty point set
returns, without error, exactly min(k, number of points) pairs, sorted
ascending by squared distance, with pairwise distinct identifiers, each
pair identifying an actual input point together with its true squared
distance; when the point set has at most k points, the result is exactly
all input points (in some order).  Ties need not be broken by input order,
since the depth-first traversal can reach tied points in either order. -/
theorem query_returns_k_sorted_points (points : List Point) (cap k : ℕ)
    (t : Point) (tr : Tree) (hB : Build points cap = .ok tr)
    (hdim : ∀ p ∈ points, p.length = t.length) (hk : 1 ≤ k) :
    ∃ r, Query tr t k = .ok r ∧
      r.length = min k points.length ∧
      (dl r).Sorted (· ≤ ·) ∧
      (r.map Prod.fst).Nodup ∧
      (∀ e ∈ r, ∃ j, j < points.length ∧ e = (j, sqDist (points.getD j []) t)) ∧
      (points.length ≤ k → r ~ entriesOf t (tagged points)) := by
  obtain ⟨hQ, hdl, hsub⟩ := query_ok_spec hB hdim hk
  set r := queryNode k t tr.root [] with hr
  have hlen_entries : (entriesOf t (tagged points)).length = points.length := by
    rw [entriesOf, List.length_map, tagged, tagFrom_length]
  have hlen : r.length = min k points.length := by
    have h1 : (dl r).length = r.length := length_dl r
    rw [← h1, hdl, List.length_take, (sortQ_perm _).length_eq, length_dl,
      hlen_entries]
  refine ⟨r, hQ, hlen, ?_, ?_, ?_, ?_⟩
  · rw [hdl]
    exact List.Pairwise.sublist (List.take_sublist _ _) (sortQ_sorted _)
  · obtain ⟨u, hu, husub⟩ := hsub
    have h1 : (u.map Prod.fst).Nodup := by
      refine List.Nodup.sublist (husub.map Prod.fst) ?_
      have h2 : (entriesOf t (tagged points)).map Prod.fst =
          (tagged points).map Prod.fst := by
        rw [entriesOf, List.map_map]
        rfl
      rw [h2]
      exact nodup_fst_tagged points
    exact (hu.map Prod.fst).nodup h1
  · intro e he
    have hmem : e ∈ entriesOf t (tagged points) := hsub.subset he
    rw [entriesOf] at hmem
    obtain ⟨p, hp, rfl⟩ := List.mem_map.mp hmem
    obtain ⟨j, hj, hpe⟩ := mem_tagFrom 0 points p hp
    refine ⟨j, hj, ?_⟩
    rw [hpe]
    simp
  · intro hle
    refine hsub.perm_of_length_le ?_
    rw [hlen_entries, hlen]
    omega

/-- C3: Build on a non-empty point set with positive leaf capacity succeeds
and produces a tree in which every point goes to exactly one subtree
(strictly below the splitting value to the left, equal or above to the
right, recursively), and the identified points collected over all leaves
are a permutation of the identified input points: no duplication, no
omission. -/
theorem build_partition_invariant (points : List Point) (cap : ℕ)
    (hne : points ≠ []) (hcap : 1 ≤ cap) :
    ∃ tr, Build points cap = .ok tr ∧ allPts tr.root ~ tagged points ∧
      PartitionOK tr.root := by
  have hB : Build points cap = .ok ⟨(points.headD []).length,
      buildNode cap ((points.headD []).length) points.length 0 (tagged points)⟩ := by
    rw [Build, if_neg]
    push_neg
    exact ⟨hne, by omega⟩
  refine ⟨_, hB, ?_, ?_⟩
  · exact allPts_buildNode cap _ points.length 0 (tagged points)
      (by rw [tagged, tagFrom_length])
  · exact partitionOK_buildNode cap _ points.length 0 (tagged points)
      (by rw [tagged, tagFrom_length])

/-- C4: Build fails (with InvalidInputError) exactly when the point
sequence is empty or the leaf capacity is below 1, and Query fails (with
InvalidInputError) exactly when k is below 1 or the target dimensionality
differs from the tree dimensionality; in all other cases the operations
return a value, so no error is silently swallowed. -/
theorem build_query_error_conditions :
    (∀ (points : List Point) (cap : ℕ),
      Build points cap = .error .invalidInputError ↔ points = [] ∨ cap < 1) ∧
    (∀ (tr : Tree) (t : Point) (k : ℕ),
      Query tr t k = .error .invalidInputError ↔ k < 1 ∨ t.length ≠ tr.dim) ∧
    (∀ (points : List Point) (cap : ℕ), (Build points cap).isOk = true ↔
      ¬ (points = [] ∨ cap < 1)) ∧
    (∀ (tr : Tree) (t : Point) (k : ℕ), (Query tr t k).isOk = true ↔
      ¬ (k < 1 ∨ t.length ≠ tr.dim)) := by
  refine ⟨fun points cap => ?_, fun tr t k => ?_, fun points cap => ?_,
    fun tr t k => ?_⟩
  · rw [Build]
    split_ifs with h
    · exact iff_of_true rfl h
    · exact iff_of_false (by simp) h
  · rw [Query]
    split_ifs with h
    · exact iff_of_true rfl h
    · exact iff_of_false (by simp) h
  · rw [Build]
    split_ifs with h
    · exact iff_of_false (by simp [Except.isOk, Except.toBool]) (not_not_intro h)
    · exact iff_of_true (by simp [Except.isOk, Except.toBool]) h
  · rw [Query]
    split_ifs with h
    · exact iff_of_false (by simp [Except.isOk, Except.toBool]) (not_not_intro h)
    · exact iff_of_true (by simp [Except.isOk, Except.toBool]) h

/-- C7: all operations are pure functions of their arguments, hence
deterministic: repeating Build, Query or Density with identical arguments
yields identical results (identical successes or identical failures). -/
theorem operations_deterministic :
    (∀ (points : List Point) (cap : ℕ), Build points cap = Build points cap) ∧
    (∀ (tr : Tree) (t : Point) (k : ℕ), Query tr t k = Query tr t k) ∧
    (∀ (ds : List (ℕ × ℚ)) (k D : ℕ), Density ds k D = Density ds k D) :=
  ⟨fun _ _ => rfl, fun _ _ _ => rfl, fun _ _ _ => rfl⟩

/-- Counterexample to C1 as stated: on the two points 1 and -1 of the line
with target 0 (both at squared distance 1), the tree query returns
identifier 1 (the point -1, reached first by the depth-first descent) while
the brute-force stable scan returns identifier 0; the identifiers disagree
even though the distances agree exactly. -/
theorem query_ids_differ_from_bruteforce_at_tie :
    Build [[(1 : ℚ)], [(-1 : ℚ)]] 1 =
      .ok ⟨1, .inner 0 1 (.leaf [(1, [-1])]) (.leaf [(0, [1])])⟩ ∧
    Query ⟨1, .inner 0 1 (.leaf [(1, [-1])]) (.leaf [(0, [1])])⟩ [(0 : ℚ)] 1 =
      .ok [(1, 1)] ∧
    bruteKnn [[(1 : ℚ)], [(-1 : ℚ)]] [(0 : ℚ)] 1 = [(0, 1)] ∧
    ([(1, 1)] : List (ℕ × ℚ)) ≠ [(0, 1)] := by
  refine ⟨?_, ?_, ?_, fun h =>
    absurd (congrArg Prod.fst (List.head_eq_of_cons_eq h)) one_ne_zero⟩
  · norm_num [Build, buildNode, tagged, tagFrom, splitVal, leftPts, rightPts,
      coordAt, sortQ, List.insertionSort, List.orderedInsert]
    exact fun h => nomatch h
  · norm_num [Query, queryNode, scanLeaf, offer, insertPair, worstOf, lastD, dl,
      sqDist]
  · norm_num [bruteKnn, entriesOf, tagged, tagFrom, sqDist,
      List.insertionSort, List.orderedInsert]

/-- Counterexample to the tie-breaking clause of C2: on the two points 3 and
1 of the line with target 2, both at squared distance 1, the query of the
built tree returns the pair with identifier 1, although the point with
identifier 0 has the same distance and comes earlier in the input order, so
ties are not broken by input order. -/
theorem query_tie_not_broken_by_input_order :
    Build [[(3 : ℚ)], [(1 : ℚ)]] 1 =
      .ok ⟨1, .inner 0 3 (.leaf [(1, [1])]) (.leaf [(0, [3])])⟩ ∧
    Query ⟨1, .inner 0 3 (.leaf [(1, [1])]) (.leaf [(0, [3])])⟩ [(2 : ℚ)] 1 =
      .ok [(1, 1)] ∧
    sqDist [(3 : ℚ)] [(2 : ℚ)] = 1 ∧
    sqDist [(1 : ℚ)] [(2 : ℚ)] = 1 ∧
    (1 : ℕ) ≠ 0 := by
  refine ⟨?_, ?_, ?_, ?_, by simp⟩
  · norm_num [Build, buildNode, tagged, tagFrom, splitVal, leftPts, rightPts,
      coordAt, sortQ, List.insertionSort, List.orderedInsert]
    exact fun h => nomatch h
  · norm_num [Query, queryNode, scanLeaf, offer, insertPair, worstOf, lastD, dl,
      sqDist]
  · norm_num [sqDist]
  · norm_num [sqDist]

/-- Witness for the amended C1 at the concrete scenario of spec section 8:
four points in the plane, leaf capacity 1, target the origin, k = 2. -/
theorem query_matches_bruteforce_distances_witness :
    ∃ r, Query ⟨2, buildNode 1 2 4 0
        (tagged [[(0 : ℚ), 0], [1, 0], [0, 1], [5, 5]])⟩ [(0 : ℚ), 0] 2 = .ok r ∧
      dl r = dl (bruteKnn [[(0 : ℚ), 0], [1, 0], [0, 1], [5, 5]] [(0 : ℚ), 0] 2) ∧
      r <+~ entriesOf [(0 : ℚ), 0] (tagged [[(0 : ℚ), 0], [1, 0], [0, 1], [5, 5]]) :=
  query_matches_bruteforce_distances [[(0 : ℚ), 0], [1, 0], [0, 1], [5, 5]] 1 2
    [(0 : ℚ), 0] ⟨2, buildNode 1 2 4 0 (tagged [[(0 : ℚ), 0], [1, 0], [0, 1], [5, 5]])⟩
    rfl (by decide) (by decide)

/-- Witness for the amended C2 at a concrete one-dimensional instance with
three points, leaf capacity 1 and k = 2. -/
theorem query_returns_k_sorted_points_witness :
    ∃ r, Query ⟨1, buildNode 1 1 3 0 (tagged [[(0 : ℚ)], [2], [5]])⟩ [(0 : ℚ)] 2 =
        .ok r ∧
      r.length = min 2 ([[(0 : ℚ)], [2], [5]] : List Point).length ∧
      (dl r).Sorted (· ≤ ·) ∧
      (r.map Prod.fst).Nodup ∧
      (∀ e ∈ r, ∃ j, j < ([[(0 : ℚ)], [2], [5]] : List Point).length ∧
        e = (j, sqDist (([[(0 : ℚ)], [2], [5]] : List Point).getD j []) [(0 : ℚ)])) ∧
      (([[(0 : ℚ)], [2], [5]] : List Point).length ≤ 2 →
        r ~ entriesOf [(0 : ℚ)] (tagged [[(0 : ℚ)], [2], [5]])) :=
  query_returns_k_sorted_points [[(0 : ℚ)], [2], [5]] 1 2 [(0 : ℚ)]
    ⟨1, buildNode 1 1 3 0 (tagged [[(0 : ℚ)], [2], [5]])⟩
    rfl (by decide) (by decide)

/-- Witness for C3 at a concrete instance: four points on the line with
leaf capacity 2. -/
theorem build_partition_invariant_witness :
    ∃ tr, Build [[(1 : ℚ)], [4], [7], [10]] 2 = .ok tr ∧
      allPts tr.root ~ tagged [[(1 : ℚ)], [4], [7], [10]] ∧
      PartitionOK tr.root :=
  build_partition_invariant [[(1 : ℚ)], [4], [7], [10]] 2
    (fun h => nomatch h) (by decide)

/-- C5: the density estimate is k divided by the volume of the D-ball whose
radius is the maximum neighbor distance; concretely, for D = 1, k = 1 and
maximum distance 2, the volume is V_1(2) = 4 and the estimate is 1/4. -/
theorem density_formula_and_value :
    (∀ (ds : List (ℕ × ℚ)) (k D : ℕ), maxDist ds = 0 ∨
      Density ds k D = .ok ((k : ℝ) / vD D ((maxDist ds : ℚ) : ℝ))) ∧
    vD 1 2 = 4 ∧
    Density [(0, 2)] 1 1 = .ok ((1 : ℝ) / 4) := by
  have hπ : Real.sqrt Real.pi ≠ 0 := ne_of_gt (Real.sqrt_pos.mpr Real.pi_pos)
  have hvD : vD 1 2 = 4 := by
    rw [vD]
    push_cast
    rw [Real.Gamma_one_half_eq, ← Real.sqrt_eq_rpow]
    field_simp
    ring
  have hmax : maxDist [((0 : ℕ), (2 : ℚ))] = 2 := by
    simp [maxDist]
  refine ⟨?_, hvD, ?_⟩
  · intro ds k D
    by_cases h : maxDist ds = 0
    · exact Or.inl h
    · exact Or.inr (by rw [Density, if_neg h])
  · rw [Density, if_neg (by rw [hmax]; norm_num), hmax]
    rw [show (((2 : ℚ) : ℝ)) = (2 : ℝ) by push_cast; ring, hvD]
    norm_num

/-- C6: the density estimate is a pure function that fails with DomainError
exactly when the maximum distance of the supplied neighbor result is zero,
and returns a value in every other case. -/
theorem density_domain_error_iff :
    ∀ (ds : List (ℕ × ℚ)) (k D : ℕ),
      (Density ds k D = .error .domainError ↔ maxDist ds = 0) ∧
      ((Density ds k D).isOk = true ↔ ¬ maxDist ds = 0) := by
  intro ds k D
  constructor
  · rw [Density]
    split_ifs with h
    · exact iff_of_true rfl h
    · exact iff_of_false (by simp) h
  · rw [Density]
    split_ifs with h
    · exact iff_of_false (by simp [Except.isOk, Except.toBool]) (not_not_intro h)
    · exact iff_of_true (by simp [Except.isOk, Except.toBool]) h

end KNN

namespace NB

theorem zip_map_const (x : List ℚ) (b : ℚ) :
    x.zip (x.map (fun _ => b)) = x.map (fun a => (a, b)) := by
  induction x with
  | nil => rfl
  | cons a xs ih =>
    show (a, b) :: xs.zip (xs.map fun _ => b) = (a, b) :: xs.map (fun a => (a, b))
    rw [ih]

theorem Xgrid_eq_flatten (x y : List ℚ) :
    Xgrid x y = (y.map (fun b => x.map (fun a => (a, b)))).flatten := by
  induction y with
  | nil => rfl
  | cons b ys ih =>
    simp only [Xgrid, meshgridXY, ravel, List.map_cons, List.flatten_cons] at ih ⊢
    rw [List.zip_append (by simp), ih, zip_map_const]

theorem count_pair_map (x : List ℚ) (b' a b : ℚ) :
    (x.map (fun a' => (a', b'))).count (a, b) =
      if b' = b then x.count a else 0 := by
  induction x with
  | nil => simp
  | cons c xs ih =>
    simp only [List.map_cons, List.count_cons, ih, Prod.mk.injEq]
    by_cases hb : b' = b <;> by_cases hc : c = a <;>
      simp [hb, hc, List.count_cons]

/-- C9: the meshgrid construction of the notebook builds the full Cartesian
product grid: the number of rows is the product of the lengths of x and y,
the grid is exactly the list of pairs (x_i, y_j) grouped by y-value, and
every value pair occurs with multiplicity equal to the product of its
multiplicities in x and y (hence exactly once when the entries of x and of
y are distinct, as for the notebook's linspace inputs). -/
theorem Xgrid_cartesian_product (x y : List ℚ) :
    (Xgrid x y).length = x.length * y.length ∧
    Xgrid x y = (y.map (fun b => x.map (fun a => (a, b)))).flatten ∧
    (∀ a b, (Xgrid x y).count (a, b) = x.count a * y.count b) := by
  refine ⟨?_, Xgrid_eq_flatten x y, ?_⟩
  · rw [Xgrid_eq_flatten]
    induction y with
    | nil => simp
    | cons c ys ih =>
      simp only [List.map_cons, List.flatten_cons, List.length_append,
        List.length_map, List.length_cons] at ih ⊢
      rw [ih]
      ring
  · intro a b
    rw [Xgrid_eq_flatten]
    induction y with
    | nil => simp
    | cons c ys ih =>
      simp only [List.map_cons, List.flatten_cons, List.count_append,
        List.count_cons, List.length_cons] at ih ⊢
      rw [ih, count_pair_map]
      by_cases hc : c = b <;> simp [hc, List.count_cons] <;> ring

/-- C10: after the two filtering steps, every surviving element lies
strictly between -10 and 30, and the filtered array is a sublist of the
original, so the relative order of surviving elements is preserved. -/
theorem filteredSample_bounds_and_order (xs : List ℚ) :
    (∀ a ∈ filteredSample xs, -10 < a ∧ a < 30) ∧
    (filteredSample xs).Sublist xs := by
  constructor
  · intro a ha
    rw [filteredSample] at ha
    have h1 := List.mem_filter.mp ha
    have h2 := List.mem_filter.mp h1.1
    exact ⟨by simpa using h2.2, by simpa using h1.2⟩
  · rw [filteredSample]
    exact (List.filter_sublist _).trans (List.filter_sublist _)

end NB
